import Mathlib

/-!
Verification of the generation-request orchestration layer of
`pyros-app/src-tauri/src/main.rs`.

The development shallowly embeds the three parts of the source that the
claims are about:

* the image index scanner `list_images` (directory filtering and
  sorting by modification time);
* the generation command `generate_image` (spawning the engine process,
  the per-image Python loop, and status/stdout aggregation);
* the placeholder-substitution loop of the embedded Python script
  (`re.findall` over the template, then `str.replace(match, choice, 1)`
  per match), together with the splicing of the caller prompt into a
  Python triple-quoted string literal.

Strings are modelled as `List Char` where character-level structure
matters (templating, paths, literal parsing) and as `String` elsewhere.
-/

namespace Pyros

/-! ### Image index scanner (`list_images`, main.rs lines 34-61) -/

/-- A directory entry as `list_images` sees it after `e.ok()` succeeded:
its file name and, when `e.metadata().ok()?.modified().ok()?` succeeds,
its modification time (`none` models an entry whose metadata or mtime
cannot be read).  The directory prefix of `e.path()` is common to all
entries and irrelevant to extension matching and ordering, so paths are
modelled by the file name. -/
structure DirEntryE where
  name : List Char
  mtime : Option Nat
deriving DecidableEq, Repr

/-- The result of `fs::read_dir(..)`: `none` when the directory is
missing/unreadable (`.ok()` yields `None`), otherwise the entry reads,
where an inner `none` is an entry for which `e.ok()` failed. -/
abbrev DirListing := Option (List (Option DirEntryE))

/-- Splits a file name at its last dot: `some (stem, ext)`, or `none`
when the name contains no dot. -/
def lastDotSplit : List Char → Option (List Char × List Char)
  | [] => none
  | c :: rest =>
    match lastDotSplit rest with
    | some (b, a) => some (c :: b, a)
    | none => if c = '.' then some ([], rest) else none

/-- Rust `Path::extension()` on a file name: the portion after the last
dot; `none` when there is no dot or when the name begins with the only
dot (hidden files such as `.gitignore`). -/
def extension (name : List Char) : Option (List Char) :=
  match lastDotSplit name with
  | some (stem, ext) => if stem = [] then none else some ext
  | none => none

/-- The extension filter of `list_images`
(`ext == "png" || ext == "jpg" || ext == "jpeg"`, main.rs lines 42-47);
`OsStr == str` compares bytes, hence exact (case-sensitive) equality. -/
def extAllowed (name : List Char) : Bool :=
  match extension name with
  | some e => e = 'p' :: 'n' :: 'g' :: [] ∨ e = 'j' :: 'p' :: 'g' :: []
      ∨ e = 'j' :: 'p' :: 'e' :: 'g' :: []
  | none => false

/-- One insertion step of sorting `(name, mtime)` pairs by `mtime`
descending. -/
def insertByTime (x : List Char × Nat) :
    List (List Char × Nat) → List (List Char × Nat)
  | [] => [x]
  | y :: ys => if y.2 ≤ x.2 then x :: y :: ys else y :: insertByTime x ys

/-- Sorting by modification time, newest first: models
`images.sort_by(|a, b| b.1.cmp(&a.1))` (main.rs line 58).  The claims
constrain only the resulting descending order (ties are arbitrary per
the design), which any correct comparator sort produces. -/
def sortByTimeDesc : List (List Char × Nat) → List (List Char × Nat)
  | [] => []
  | x :: xs => insertByTime x (sortByTimeDesc xs)

/-- The `(path, mtime)` pairs `list_images` collects before sorting:
`entries.filter_map(|e| e.ok())` then the extension filter, then
`filter_map` of the metadata/mtime read (main.rs lines 37-55). -/
def imagePairs (entries : List (Option DirEntryE)) : List (List Char × Nat) :=
  ((entries.filterMap id).filter (fun e => extAllowed e.name)).filterMap
    (fun e => e.mtime.map (fun t => (e.name, t)))

/-- The sorted pairs of `list_images` (after main.rs line 58). -/
def sortedPairs (dir : DirListing) : List (List Char × Nat) :=
  match dir with
  | none => []
  | some entries => sortByTimeDesc (imagePairs entries)

/-- `list_images` (main.rs lines 34-61): empty on a missing/unreadable
directory (`.ok() ... unwrap_or_default()`), otherwise the filtered
entries sorted newest-first, paths only. -/
def list_images (dir : DirListing) : List (List Char) :=
  (sortedPairs dir).map (fun p => p.1)

/-- ASCII lower-casing of one character, for stating the
case-insensitivity claim C6. -/
def lowerChar (c : Char) : Char :=
  if 'A' ≤ c ∧ c ≤ 'Z' then Char.ofNat (c.toNat + 32) else c

/-- Case-insensitive membership of a file name's extension in the
allow-list, as claim C6 states the filter. -/
def ciAllowed (name : List Char) : Bool :=
  match extension name with
  | some e =>
      e.map lowerChar = 'p' :: 'n' :: 'g' :: []
        ∨ e.map lowerChar = 'j' :: 'p' :: 'g' :: []
        ∨ e.map lowerChar = 'j' :: 'p' :: 'e' :: 'g' :: []
  | none => false

/-- An entry read that survives the error-absorbing stages of
`list_images`: the entry itself was readable (`e.ok()`) and its
metadata/mtime was readable. -/
def entryReadable (o : Option DirEntryE) : Bool :=
  match o with
  | some e => e.mtime.isSome
  | none => false

/-- Claim C6 as stated: `list_images` filters by case-insensitive
extension match — every returned path is case-insensitively
allow-listed, and no readable entry with a case-insensitively
allow-listed extension is excluded. -/
def C6Claim : Prop :=
  ∀ entries : List (Option DirEntryE),
    (∀ p ∈ list_images (some entries), ciAllowed p = true) ∧
    (∀ e : DirEntryE, some e ∈ entries → ciAllowed e.name = true →
      e.mtime.isSome → e.name ∈ list_images (some entries))

/-! ### Generation command (`generate_image`, main.rs lines 65-137) -/

/-- What the spawned process wrote to stdout, as the Rust side consumes
it: either text that `serde_json::from_str::<Vec<String>>` parses (the
script's `print(json.dumps(results))` round-trips through this), or
malformed text. -/
inductive StdoutData where
  | json (l : List String)
  | malformed (raw : String)
deriving DecidableEq, Repr

/-- The `std::process::Output` of the `uv run python -c ...` invocation:
exit status, stdout, stderr. -/
structure ProcOutput where
  success : Bool
  stdout : StdoutData
  stderr : String
deriving DecidableEq, Repr

/-- The Rust aggregation in `generate_image` (main.rs lines 122-136) over
the spawn result: a spawn error (`Command::output()` failed — the engine
invocation process could not be started) maps to
`Err("Failed to run Python: ..")`; a non-success exit status maps to
`Err("Generation failed: <stderr>")`, discarding stdout; otherwise the
parsed stdout list is returned as `Ok`. -/
def generate_image (spawn : Except String ProcOutput) :
    Except String (List String) :=
  match spawn with
  | .error e => .error ("Failed to run Python: " ++ e)
  | .ok o =>
    if o.success then
      match o.stdout with
      | .json l => .ok l
      | .malformed raw => .error ("Failed to parse output: " ++ raw)
    else .error ("Generation failed: " ++ o.stderr)

/-- The external generation engine as the script's loop sees it: the
outcome of `generate_image(prompt, width=width, height=height)` on
iteration `i` — an artifact path, or the caught per-image exception
message. -/
abbrev Engine := Nat → Except String String

/-- The script's dispatch loop (the embedded Python, main.rs lines
111-118): `for i in range(count)`, appending the artifact path to
`results` on success and printing `Error: {e}` to stderr on a caught
exception.  Returns `(results, stderr lines)` after the given number of
iterations. -/
def pyLoop (engine : Engine) : Nat → List String × List String
  | 0 => ([], [])
  | n + 1 =>
    let s := pyLoop engine n
    match engine n with
    | .ok p => (s.1 ++ [p], s.2)
    | .error e => (s.1, s.2 ++ ["Error: " ++ e])

/-- The per-iteration `GenerationOutcome`s of the dispatch loop: one
outcome per invocation, success path or captured error. -/
def pyOutcomes (engine : Engine) (count : Nat) : List (Except String String) :=
  (List.range count).map engine

/-- The process output of a run with no systemic failure: the script
ran to completion, printed `json.dumps(results)` on stdout, the per-image
error lines on stderr, and exited with success status. -/
def runScript (engine : Engine) (count : Nat) : ProcOutput :=
  { success := true
    stdout := .json (pyLoop engine count).1
    stderr := String.intercalate "\n" (pyLoop engine count).2 }

/-- `generate_image` composed with a run of the script that had no
systemic failure. -/
def generateNormal (engine : Engine) (count : Nat) :
    Except String (List String) :=
  generate_image (.ok (runScript engine count))

/-- The caller-facing `GenerationResult` shape (main.rs lines 11-15 and
the request/response surface): the artifact list plus an optional
aggregate error.  A `Result::Ok` carries the list and no error; a
`Result::Err` carries no artifacts and the error string. -/
structure GenerationResult where
  images : List String
  error : Option String
deriving DecidableEq, Repr

/-- How the `Result<Vec<String>, String>` of `generate_image` appears on
the caller-facing `{ images, error }` surface. -/
def toGenerationResult : Except String (List String) → GenerationResult
  | .ok l => { images := l, error := none }
  | .error e => { images := [], error := some e }

/-- Claim C1 as stated: over a dispatch with count `N` and no systemic
failure, the result carries exactly the successful artifact paths in
production order, and a non-empty error summary exactly when some
per-image outcome failed (an empty error summary exactly when all
succeeded); when all fail the call still returns normally with an empty
list and a populated error summary. -/
def C1Claim : Prop :=
  ∀ (engine : Engine) (count : Nat),
    let res := toGenerationResult (generateNormal engine count)
    res.images = (pyLoop engine count).1 ∧
    ((∃ e, res.error = some e ∧ e ≠ "") ↔ (pyLoop engine count).1.length < count) ∧
    (res.error = none ↔ (pyLoop engine count).1.length = count)

/-! ### Prompt templating (the embedded Python, main.rs lines 102-108)

The script runs
`pattern = r'(__[a-zA-Z0-9_...]+__)'` (the class being letters, digits,
underscore, hyphen, slash) and then
`for match in re.findall(pattern, prompt): if match in prompt_vars:
 ... prompt = prompt.replace(match, random.choice(var.values), 1)`.
We embed the regex matcher (Python's leftmost, greedy-with-backtracking
semantics specialised to this pattern), `re.findall`, `str.replace`
with count 1, and the loop, with the random choices supplied by an
oracle `rand : Nat → Nat` consumed left to right (`random.choice(vs)`
on the k-th draw picks `vs[rand k % vs.length]`). -/

/-- The character class of the placeholder pattern: ASCII letters,
digits, underscore, hyphen, slash. -/
def isClassChar (c : Char) : Bool :=
  ('a' ≤ c && c ≤ 'z') || ('A' ≤ c && c ≤ 'Z') || ('0' ≤ c && c ≤ '9')
    || c = '_' || c = '-' || c = '/'

/-- `lastCloseAux l i` is the largest index `j ≥ 1` (offset by the
running index `i`) such that `l` has `'_', '_'` at positions `j, j+1`:
the backtracking point at which the greedy plus-repetition hands the
closing `__` back. -/
def lastCloseAux : List Char → Nat → Option Nat
  | [], _ => none
  | [_], _ => none
  | a :: b :: rest, i =>
    match lastCloseAux (b :: rest) (i + 1) with
    | some k => some k
    | none => if a = '_' ∧ b = '_' ∧ 1 ≤ i then some i else none

/-- The largest `j ≥ 1` with `run[j] = run[j+1] = '_'`. -/
def lastClose (run : List Char) : Option Nat := lastCloseAux run 0

/-- Matching the placeholder pattern at the head of `s` with Python's
greedy backtracking: after the opening `__`, the `+` consumes the
maximal class-character run and hands characters back until a final
`__` matches, i.e. the match closes at the last adjacent underscore
pair inside the run.  Returns `(matched token, rest of the string)`. -/
def matchToken : List Char → Option (List Char × List Char)
  | [] => none
  | [_] => none
  | a :: b :: rest =>
    if a = '_' ∧ b = '_' then
      let run := rest.takeWhile isClassChar
      match lastClose run with
      | some j =>
          some ('_' :: '_' :: run.take (j + 2),
            run.drop (j + 2) ++ rest.dropWhile isClassChar)
      | none => none
    else none

/-- Fuelled scan of `re.findall`: try to match at each position, skip
one character on failure, continue after the match on success.  The
fuel (always instantiated to more than the string length) only makes
the recursion structural. -/
def findallF : Nat → List Char → List (List Char)
  | 0, _ => []
  | _, [] => []
  | fuel + 1, c :: rest =>
    match matchToken (c :: rest) with
    | some (tok, after) => tok :: findallF fuel after
    | none => findallF fuel rest

/-- `re.findall(pattern, s)`: all leftmost non-overlapping matches. -/
def findall (s : List Char) : List (List Char) := findallF (s.length + 1) s

/-- Fuelled scan that also records the non-matching segments: returns
`(leading segment, [(token, following segment), ...])`, so that the
input is the leading segment followed by each token and its trailing
segment.  This identifies the placeholder occurrences and their
positions for stating the claims. -/
def scanTokensF : Nat → List Char → List Char × List (List Char × List Char)
  | 0, _ => ([], [])
  | _, [] => ([], [])
  | fuel + 1, c :: rest =>
    match matchToken (c :: rest) with
    | some (tok, after) =>
        let s := scanTokensF fuel after
        ([], (tok, s.1) :: s.2)
    | none =>
        let s := scanTokensF fuel rest
        (c :: s.1, s.2)

/-- The segment/token decomposition of a template by the findall scan. -/
def scanTokens (s : List Char) : List Char × List (List Char × List Char) :=
  scanTokensF (s.length + 1) s

/-- Python `s.replace(pat, repl, 1)`: replace the first (leftmost)
occurrence of `pat`, the whole string unchanged when `pat` does not
occur. -/
def replaceFirst : List Char → List Char → List Char → List Char
  | [], _, _ => []
  | c :: rest, pat, repl =>
    if pat.isPrefixOf (c :: rest) then repl ++ (c :: rest).drop pat.length
    else c :: replaceFirst rest pat repl

/-- The variable store: placeholder token (underscores included, as the
keys of `prompt_vars`) to candidate substitution strings
(`var.values`). -/
abbrev VarStore := List (List Char × List (List Char))

/-- Dictionary lookup, `match in prompt_vars` / `prompt_vars[match]`. -/
def lookupVar : VarStore → List Char → Option (List (List Char))
  | [], _ => none
  | (n, vs) :: rest, k => if n = k then some vs else lookupVar rest k

/-- `random.choice(vs)` on the k-th draw of the oracle. -/
def choiceOf (rand : Nat → Nat) (k : Nat) (vs : List (List Char)) : List Char :=
  vs.getD (rand k % vs.length) []

/-- A token that is a key of the store with a non-empty candidate set
(the condition under which the loop substitutes). -/
def MappedNE (vars : VarStore) (tok : List Char) : Prop :=
  ∃ vs, lookupVar vars tok = some vs ∧ vs ≠ []

instance (vars : VarStore) (tok : List Char) : Decidable (MappedNE vars tok) := by
  unfold MappedNE
  match h : lookupVar vars tok with
  | none => exact .isFalse (by simp [h])
  | some vs =>
    match vs with
    | [] => exact .isFalse (by simp [h])
    | v :: vs => exact .isTrue ⟨v :: vs, by simp [h]⟩

/-- The substitution loop over the matches of the original template
(main.rs lines 103-108): for each match, when its token is in the store
with non-empty candidates, replace the first remaining occurrence with
a drawn candidate.  Returns the final prompt together with the number
of replace operations performed. -/
def resolveLoop (vars : VarStore) (rand : Nat → Nat) :
    List (List Char) → Nat → List Char → List Char × Nat
  | [], _, prompt => (prompt, 0)
  | m :: ms, k, prompt =>
    match lookupVar vars m with
    | some vs =>
      if vs.isEmpty then resolveLoop vars rand ms k prompt
      else
        let s := resolveLoop vars rand ms (k + 1)
          (replaceFirst prompt m (choiceOf rand k vs))
        (s.1, s.2 + 1)
    | none => resolveLoop vars rand ms k prompt

/-- The resolved prompt: the loop run over `re.findall` of the original
template. -/
def resolve (vars : VarStore) (rand : Nat → Nat) (prompt : List Char) :
    List Char :=
  (resolveLoop vars rand (findall prompt) 0 prompt).1

/-- The number of replace operations the loop performs. -/
def resolveCount (vars : VarStore) (rand : Nat → Nat) (prompt : List Char) :
    Nat :=
  (resolveLoop vars rand (findall prompt) 0 prompt).2

/-- What claim C4 requires of the text standing at a placeholder
occurrence in the output: one of the token's candidates when the token
is mapped with a non-empty candidate set, the literal token itself
otherwise. -/
def slotOK (vars : VarStore) (tok r : List Char) : Prop :=
  match lookupVar vars tok with
  | some vs => if vs = [] then r = tok else r ∈ vs
  | none => r = tok

/-- Reassembling a scanned template with replacement text substituted
at each token occurrence. -/
def withChoices : List (List Char × List Char) → List (List Char) → List Char
  | (_, s) :: gs, r :: rs => r ++ s ++ withChoices gs rs
  | _, _ => []

/-- Claim C4 as stated: for every template, store and choice sequence,
the resolved prompt is the template with each placeholder occurrence
(position-wise) replaced by one of its candidates whenever its token is
mapped with non-empty candidates (and by itself otherwise) — the
literal token of a mapped occurrence never survives at its position. -/
def C4Claim : Prop :=
  ∀ (template : List Char) (vars : VarStore) (rand : Nat → Nat),
    ∃ rs : List (List Char),
      List.Forall₂ (slotOK vars) ((scanTokens template).2.map (fun g => g.1)) rs ∧
      resolve vars rand template =
        (scanTokens template).1 ++ withChoices (scanTokens template).2 rs

/-- The reference single-pass resolver that by construction never
recurses into substituted text: each occurrence found in the original
scan is replaced in place, independently, consuming the choice oracle
exactly as the loop does. -/
def noRecurseGo (vars : VarStore) (rand : Nat → Nat) :
    Nat → List (List Char × List Char) → List Char
  | _, [] => []
  | k, (tok, seg) :: gs =>
    match lookupVar vars tok with
    | some vs =>
      if vs.isEmpty then tok ++ seg ++ noRecurseGo vars rand k gs
      else choiceOf rand k vs ++ seg ++ noRecurseGo vars rand (k + 1) gs
    | none => tok ++ seg ++ noRecurseGo vars rand k gs

/-- Resolution as it would be were replacement strictly positional:
substituted text is emitted verbatim and never rescanned. -/
def noRecurse (vars : VarStore) (rand : Nat → Nat) (template : List Char) :
    List Char :=
  (scanTokens template).1 ++ noRecurseGo vars rand 0 (scanTokens template).2

/-- Claim C5 as stated: replacement is single-pass — every occurrence
resolves independently in place and resolution never recurses into
substituted text, i.e. the loop agrees with the strictly positional
resolver on every template, store and choice sequence. -/
def C5Claim : Prop :=
  ∀ (template : List Char) (vars : VarStore) (rand : Nat → Nat),
    resolve vars rand template = noRecurse vars rand template

/-! #### Structured templates

For the positive (amended) statement about the substitution loop we
describe templates built as an interleaving of literal segments and
placeholder tokens, with separation conditions under which the greedy
regex scan recovers exactly the intended tokens and the first-occurrence
replacement lands on the intended occurrence. -/

/-- A string with no underscore characters. -/
def UFree (l : List Char) : Prop := ∀ c ∈ l, c ≠ '_'

/-- A well-formed token body: non-empty, all characters in the pattern
class, none of them an underscore (so the token contains exactly its
delimiting double underscores). -/
def Body (b : List Char) : Prop :=
  b ≠ [] ∧ ∀ c ∈ b, isClassChar c = true ∧ c ≠ '_'

/-- Contains at least one character outside the pattern class (such a
character stops the greedy run, separating adjacent tokens). -/
def HasNonClass (l : List Char) : Prop := ∃ c ∈ l, isClassChar c = false

/-- The placeholder token with body `b`: `__b__`. -/
def mkTok (b : List Char) : List Char := '_' :: '_' :: (b ++ ['_', '_'])

/-- Assembling the token/segment groups of a structured template. -/
def joinT : List (List Char × List Char) → List Char
  | [] => []
  | (b, s) :: ps => mkTok b ++ s ++ joinT ps

/-- Well-separated groups `(body, following segment)`: every body is
well formed, every segment is underscore-free, and every segment
between two tokens contains a non-class character. -/
def PairsOK : List (List Char × List Char) → Prop
  | [] => True
  | [(b, s)] => Body b ∧ UFree s
  | (b, s) :: g :: ps => Body b ∧ UFree s ∧ HasNonClass s ∧ PairsOK (g :: ps)

instance (l : List Char) : Decidable (UFree l) := by
  unfold UFree; infer_instance

instance (b : List Char) : Decidable (Body b) := by
  unfold Body; infer_instance

instance (l : List Char) : Decidable (HasNonClass l) := by
  unfold HasNonClass; infer_instance

instance instDecPairsOK : ∀ ps, Decidable (PairsOK ps)
  | [] => .isTrue trivial
  | [(b, s)] => by unfold PairsOK; infer_instance
  | (b, s) :: g :: ps => by
    unfold PairsOK
    have h := instDecPairsOK (g :: ps)
    infer_instance

/-- Every candidate value of the store is underscore-free (so
substituted text can never supply token delimiters). -/
def CandsUFree (vars : VarStore) : Prop :=
  ∀ g ∈ vars, ∀ v ∈ g.2, UFree v

instance (vars : VarStore) : Decidable (CandsUFree vars) := by
  unfold CandsUFree; infer_instance

/-- The candidates the loop draws for the groups of a structured
template, consuming the choice oracle left to right exactly as the loop
does: a drawn candidate for a mapped non-empty token, the literal token
otherwise. -/
def specChoices (vars : VarStore) (rand : Nat → Nat) :
    Nat → List (List Char × List Char) → List (List Char)
  | _, [] => []
  | k, (b, _) :: ps =>
    match lookupVar vars (mkTok b) with
    | some vs =>
      if vs.isEmpty then mkTok b :: specChoices vars rand k ps
      else choiceOf rand k vs :: specChoices vars rand (k + 1) ps
    | none => mkTok b :: specChoices vars rand k ps

/-- The executable test for a token being mapped with a non-empty
candidate set. -/
def isMappedNE (vars : VarStore) (m : List Char) : Bool :=
  match lookupVar vars m with
  | some vs => !vs.isEmpty
  | none => false

/-- No occurrence of `p` starts inside `s` when `s` is followed by `r`:
at every position of `s`, `p` is not a prefix of the remaining text. -/
def NoStart (p s r : List Char) : Prop :=
  ∀ t, t <:+ s → t ≠ [] → ¬ p <+: (t ++ r)

/-- A piece of already-resolved text: either underscore-free
(segments and substituted candidates), or a leftover literal token that
the loop does not substitute (not mapped with non-empty candidates)
together with its following segment. -/
def GoodChunk (vars : VarStore) (c : List Char) : Prop :=
  UFree c ∨ ∃ b s, c = mkTok b ++ s ∧ Body b ∧ UFree s ∧ HasNonClass s ∧
    ¬ MappedNE vars (mkTok b)

/-- Resolved-prefix invariant of the substitution loop: the text to the
left of the occurrence being replaced is a concatenation of good
chunks. -/
def DoneOK (vars : VarStore) (d : List Char) : Prop :=
  ∃ chunks : List (List Char), d = chunks.flatten ∧ ∀ c ∈ chunks, GoodChunk vars c

/-! ### Prompt splicing into the generated script (main.rs lines 82-120)

The Rust side builds the Python source with
`format!(r#"... prompt = '''{prompt}''' ..."#)`, splicing the caller's
prompt verbatim (no escaping) between triple quotes.  We model the text
standing after the opening `'''` — the prompt followed by the intended
closing `'''` — and a scanner for Python triple-quoted string literals:
the literal's value runs to the first unescaped `'''`, with backslash
escapes processed; the scanner fails when the literal never closes.
`engineSidePrompt` is the value the script's `prompt` variable receives
when the literal closes exactly at the intended place (any leftover
text before the rest of the script makes the script malformed). -/

/-- Python's processing of a backslash escape `\c` inside a string
literal: the common escapes, line continuation, and (as Python does)
an unrecognised escape kept verbatim. -/
def escChar (c : Char) : List Char :=
  if c = 'n' then ['\n']
  else if c = 't' then ['\t']
  else if c = 'r' then ['\r']
  else if c = '\\' then ['\\']
  else if c = '\'' then ['\'']
  else if c = '"' then ['"']
  else if c = '\n' then []
  else ['\\', c]

/-- Scans a Python triple-quoted string body: returns the literal's
value and the text after the closing `'''`, or `none` when the literal
never closes (strings of fewer than three remaining characters cannot
contain the closing quotes and any escape in them is dangling, so they
uniformly fail). -/
def parseTriple : List Char → Option (List Char × List Char)
  | [] => none
  | [_] => none
  | [_, _] => none
  | c :: d :: e :: rest =>
    if c = '\\' then
      (parseTriple (e :: rest)).map (fun p => (escChar d ++ p.1, p.2))
    else if c = '\'' ∧ d = '\'' ∧ e = '\'' then some ([], rest)
    else (parseTriple (d :: e :: rest)).map (fun p => (c :: p.1, p.2))

/-- The closing triple quote. -/
def qqq : List Char := ['\'', '\'', '\'']

/-- The generated script text following the opening `'''` of
`prompt = '''{prompt}'''`: the caller's prompt spliced verbatim, then
the intended closing quotes. -/
def spliceScript (prompt : List Char) : List Char := prompt ++ qqq

/-- The value the engine-side script's `prompt` variable operates on:
defined when the literal closes exactly at the intended closing quotes
(otherwise the generated script is malformed / operates on a different
value). -/
def engineSidePrompt (prompt : List Char) : Option (List Char) :=
  match parseTriple (spliceScript prompt) with
  | some (v, []) => some v
  | _ => none

/-- Whether three consecutive single quotes occur in the string. -/
def hasTriple : List Char → Bool
  | a :: b :: c :: rest =>
    (a = '\'' && b = '\'' && c = '\'') || hasTriple (b :: c :: rest)
  | _ => false

/-- Claim C10 as stated (its universally quantified part): for every
prompt containing no `'''` substring and no backslash, the engine-side
prompt value equals the caller's prompt verbatim. -/
def C10Claim : Prop :=
  ∀ prompt : List Char, hasTriple prompt = false → '\\' ∉ prompt →
    engineSidePrompt prompt = some prompt

/-! ## Theorems -/

/-! ### Dispatch and aggregation (C1, C2, C3, C9) -/

/-- Each loop iteration yields exactly one outcome: after `n`
iterations the successes and the per-image failure lines together
number exactly `n`. -/
theorem pyLoop_length (engine : Engine) :
    ∀ n, (pyLoop engine n).1.length + (pyLoop engine n).2.length = n := by
  intro n
  induction n with
  | zero => rfl
  | succ n ih =>
    simp only [pyLoop]
    cases engine n <;> simp [List.length_append] <;> omega

/-- C2: with count `N` and no systemic failure the dispatch loop
performs `N` engine invocations yielding exactly `N` generation
outcomes, each invocation contributing exactly one outcome — an
artifact path appended to the results on success or one captured error
line on failure. -/
theorem c2_dispatch_count (engine : Engine) (n : Nat) :
    (pyOutcomes engine n).length = n ∧
    (pyLoop engine n).1.length + (pyLoop engine n).2.length = n := by
  constructor
  · simp [pyOutcomes]
  · exact pyLoop_length engine n

/-- C9: the number of generation outcomes produced by the dispatch
loop never exceeds the requested count — after every iteration
`i ≤ N` of the batch the outcomes produced so far number `i ≤ N`. -/
theorem c9_outcome_bound (engine : Engine) (N i : Nat) (h : i ≤ N) :
    (pyLoop engine i).1.length + (pyLoop engine i).2.length ≤ N := by
  rw [pyLoop_length engine i]; exact h

/-- Witness for C9 at a concrete batch state: two iterations of a
three-image request. -/
theorem c9_witness :
    2 ≤ 3 ∧
    (pyLoop (fun i => if i = 0 then .ok "p0" else .error "boom") 2).1.length +
      (pyLoop (fun i => if i = 0 then .ok "p0" else .error "boom") 2).2.length ≤ 3 :=
  ⟨by decide, c9_outcome_bound _ 3 2 (by decide)⟩

/-- C1 as stated is false: with `count = 2`, the first invocation
succeeding and the second failing per-image, the process exits with
success status, the Rust side returns `Ok(["p0"])`, and the caller sees
the artifact list with an *empty* error summary even though `K = 1 <
2 = N` — stderr is discarded when the exit status is success. -/
theorem c1_counterexample : ¬ C1Claim := by
  intro h
  have h2 := (h (fun i => if i = 0 then .ok "p0" else .error "boom") 2).2.1
  have hlt : (pyLoop (fun i : Nat =>
      if i = 0 then (.ok "p0" : Except String String) else .error "boom") 2).1.length < 2 := by
    decide
  obtain ⟨e, he, -⟩ := h2.mpr hlt
  have hnone : (toGenerationResult (generateNormal
      (fun i => if i = 0 then .ok "p0" else .error "boom") 2)).error = none := rfl
  rw [hnone] at he
  cases he

/-- C1 amended: with no systemic failure the call always returns
normally with exactly the successful artifact paths in production
order and an *empty* error summary, regardless of how many per-image
outcomes failed — in particular, when all `N` outcomes fail it returns
an empty artifact list and still no error (per-image stderr is
discarded on a success exit status). -/
theorem c1_amended (engine : Engine) (count : Nat) :
    generateNormal engine count = .ok (pyLoop engine count).1 ∧
    toGenerationResult (generateNormal engine count) =
      { images := (pyLoop engine count).1, error := none } := by
  constructor <;> rfl

/-- C3: a systemic failure — the engine invocation process could not
be started at all (`Command::output()` errs), or the process reports
overall failure status — makes the whole request fail with a non-empty
error and no artifact paths; in the failure-status case the partial
stdout (however many successes it contains) is discarded, never
synthesized into a partial artifact list. -/
theorem c3_engine_unreachable :
    (∀ msg : String,
      generate_image (.error msg) = .error ("Failed to run Python: " ++ msg) ∧
      ("Failed to run Python: " ++ msg) ≠ "") ∧
    (∀ o : ProcOutput, o.success = false →
      generate_image (.ok o) = .error ("Generation failed: " ++ o.stderr) ∧
      ("Generation failed: " ++ o.stderr) ≠ "") := by
  constructor
  · intro msg
    refine ⟨rfl, fun h => ?_⟩
    have h2 := congrArg String.length h
    rw [String.length_append] at h2
    have h3 : ("Failed to run Python: " : String).length = 22 := rfl
    have h4 : ("" : String).length = 0 := rfl
    omega
  · intro o ho
    constructor
    · simp [generate_image, ho]
    · intro h
      have h2 := congrArg String.length h
      rw [String.length_append] at h2
      have h3 : ("Generation failed: " : String).length = 19 := rfl
      have h4 : ("" : String).length = 0 := rfl
      omega

/-- Witness for C3: a failed exit status with two successes already on
stdout still yields the aggregate error, not a partial list. -/
theorem c3_witness :
    generate_image (.ok ⟨false, .json ["p0", "p1"], "import error"⟩) =
      .error ("Generation failed: " ++ "import error") ∧
    ("Generation failed: " ++ "import error") ≠ "" :=
  c3_engine_unreachable.2 ⟨false, .json ["p0", "p1"], "import error"⟩ rfl

/-! ### Image index scanner (C6, C7, C8) -/

theorem mem_insertByTime {x y : List Char × Nat} {l : List (List Char × Nat)} :
    x ∈ insertByTime y l ↔ x = y ∨ x ∈ l := by
  induction l with
  | nil => simp [insertByTime]
  | cons z zs ih =>
    simp only [insertByTime]
    split
    · simp [List.mem_cons]
    · simp only [List.mem_cons, ih]
      tauto

theorem mem_sortByTimeDesc {x : List Char × Nat} :
    ∀ {l : List (List Char × Nat)}, x ∈ sortByTimeDesc l ↔ x ∈ l := by
  intro l
  induction l with
  | nil => simp [sortByTimeDesc]
  | cons y ys ih => simp [sortByTimeDesc, mem_insertByTime, ih]

theorem pairwise_insertByTime {x : List Char × Nat} {l : List (List Char × Nat)}
    (h : List.Pairwise (fun a b => b.2 ≤ a.2) l) :
    List.Pairwise (fun a b => b.2 ≤ a.2) (insertByTime x l) := by
  induction l with
  | nil => simp [insertByTime]
  | cons y ys ih =>
    rw [List.pairwise_cons] at h
    obtain ⟨hy, hys⟩ := h
    simp only [insertByTime]
    split
    · rename_i hle
      rw [List.pairwise_cons]
      refine ⟨fun z hz => ?_, List.pairwise_cons.mpr ⟨hy, hys⟩⟩
      rcases List.mem_cons.mp hz with rfl | hz
      · exact hle
      · exact le_trans (hy z hz) hle
    · rename_i hgt
      rw [List.pairwise_cons]
      refine ⟨fun z hz => ?_, ih hys⟩
      rcases mem_insertByTime.mp hz with rfl | hz
      · omega
      · exact hy z hz

theorem pairwise_sortByTimeDesc :
    ∀ l : List (List Char × Nat),
      List.Pairwise (fun a b => b.2 ≤ a.2) (sortByTimeDesc l)
  | [] => by simp [sortByTimeDesc]
  | x :: xs => pairwise_insertByTime (pairwise_sortByTimeDesc xs)

/-- C7: the listing is sorted most recent first — whenever entry `A`
is listed before entry `B`, `A`'s modification time is at least `B`'s
(and the returned paths are exactly the first projections of the
sorted pairs). -/
theorem c7_newest_first (dir : DirListing) :
    List.Pairwise (fun a b => b.2 ≤ a.2) (sortedPairs dir) ∧
    list_images dir = (sortedPairs dir).map (fun p => p.1) := by
  refine ⟨?_, rfl⟩
  cases dir with
  | none => simp [sortedPairs]
  | some entries => exact pairwise_sortByTimeDesc _

/-- The collection pipeline of `list_images` as a single pass over the
raw entry reads. -/
theorem imagePairs_eq (entries : List (Option DirEntryE)) :
    imagePairs entries = entries.filterMap (fun o =>
      match o with
      | some e =>
          if extAllowed e.name then e.mtime.map (fun t => (e.name, t)) else none
      | none => none) := by
  induction entries with
  | nil => rfl
  | cons o os ih =>
    cases o with
    | none =>
      simp only [imagePairs, List.filterMap_cons] at ih ⊢
      exact ih
    | some e =>
      by_cases hx : extAllowed e.name
      · cases hm : e.mtime with
        | none =>
          simp [imagePairs, List.filterMap_cons, List.filter_cons, hx, hm] at ih ⊢
          exact ih
        | some t =>
          simp [imagePairs, List.filterMap_cons, List.filter_cons, hx, hm] at ih ⊢
          exact ih
      · simp [imagePairs, List.filterMap_cons, List.filter_cons, hx] at ih ⊢
        exact ih

/-- C8: a missing or unreadable output directory yields the empty
listing rather than an error, and entries whose read or metadata
failed are silently skipped — the listing is the same as if only the
readable entries were present. -/
theorem c8_missing_dir_and_skip :
    list_images none = [] ∧
    ∀ entries : List (Option DirEntryE),
      list_images (some entries) =
        list_images (some (entries.filter entryReadable)) := by
  refine ⟨rfl, fun entries => ?_⟩
  suffices h : imagePairs entries = imagePairs (entries.filter entryReadable) by
    simp [list_images, sortedPairs, h]
  rw [imagePairs_eq, imagePairs_eq]
  induction entries with
  | nil => rfl
  | cons o os ih =>
    cases o with
    | none => simpa [List.filter_cons, entryReadable, List.filterMap_cons] using ih
    | some e =>
      cases hm : e.mtime with
      | none =>
        simp only [List.filter_cons, entryReadable, hm, Option.isSome_none,
          List.filterMap_cons, ite_self]
        simpa [hm] using ih
      | some t =>
        simp only [List.filter_cons, entryReadable, hm, Option.isSome_some,
          List.filterMap_cons, if_true]
        by_cases hx : extAllowed e.name
        · simpa [hm, hx] using congrArg (List.cons (e.name, t)) ih
        · simpa [hm, hx] using ih

/-- C6 as stated is false: the extension match is byte equality, hence
case-sensitive — a readable entry `a.PNG` carries a case-insensitively
allow-listed raster extension yet is excluded from the listing. -/
theorem c6_counterexample : ¬ C6Claim := by
  intro h
  have h2 := (h [some ⟨"a.PNG".data, some 0⟩]).2 ⟨"a.PNG".data, some 0⟩
    (by simp) (by decide) (by decide)
  have h3 : list_images (some [some ⟨"a.PNG".data, some 0⟩]) = [] := by decide
  rw [h3] at h2
  cases h2

/-- C6 amended: the filter matches extensions case-sensitively — a path
is returned exactly when it names a readable entry whose extension is
literally `png`, `jpg` or `jpeg` (so `a.PNG` is excluded even though a
case-insensitive match would admit it). -/
theorem c6_case_sensitive (entries : List (Option DirEntryE)) (p : List Char) :
    p ∈ list_images (some entries) ↔
      ∃ e : DirEntryE, some e ∈ entries ∧ extAllowed e.name = true ∧
        e.mtime.isSome ∧ e.name = p := by
  simp only [list_images, sortedPairs, List.mem_map, mem_sortByTimeDesc,
    imagePairs_eq, List.mem_filterMap]
  constructor
  · rintro ⟨⟨q, t⟩, ⟨o, ho, hf⟩, hp⟩
    cases o with
    | none => simp at hf
    | some e =>
      by_cases hx : extAllowed e.name
      · cases hm : e.mtime with
        | none => simp [hx, hm] at hf
        | some u =>
          simp only [hx, hm, if_true, Option.map_some] at hf
          obtain ⟨hq, -⟩ := Prod.mk.injEq .. ▸ Option.some.injEq .. ▸ hf
          exact ⟨e, ho, hx, by simp [hm], by simpa [← hq] using hp⟩
      · simp [hx] at hf
  · rintro ⟨e, he, hx, hm, rfl⟩
    obtain ⟨t, ht⟩ := Option.isSome_iff_exists.mp hm
    exact ⟨(e.name, t), ⟨some e, he, by simp [hx, ht]⟩, rfl⟩

/-! ### Prompt splicing (C10) -/

theorem parseTriple_cons_eq (c d e : Char) (rest : List Char) :
    parseTriple (c :: d :: e :: rest) =
      if c = '\\' then
        (parseTriple (e :: rest)).map (fun p => (escChar d ++ p.1, p.2))
      else if c = '\'' ∧ d = '\'' ∧ e = '\'' then some ([], rest)
      else (parseTriple (d :: e :: rest)).map (fun p => (c :: p.1, p.2)) := rfl

/-- A prompt with no triple quote, no backslash, and not ending in a
quote reaches the intended closing quotes intact, so the literal's
value is the prompt verbatim with nothing left over. -/
theorem parseTriple_splice :
    ∀ p : List Char, hasTriple p = false → '\\' ∉ p →
      p.getLast? ≠ some '\'' → parseTriple (p ++ qqq) = some (p, []) := by
  intro p
  induction p with
  | nil => intro _ _ _; rfl
  | cons a p2 ih =>
    intro ht hb hl
    have ha : a ≠ '\\' := fun h => hb (by simp [h])
    have hb2 : '\\' ∉ p2 := fun h => hb (List.mem_cons_of_mem a h)
    cases p2 with
    | nil =>
      have haq : a ≠ '\'' := by simpa using hl
      show parseTriple (a :: '\'' :: '\'' :: ['\'']) = some ([a], [])
      rw [parseTriple_cons_eq, if_neg ha, if_neg (by simp [haq])]
      rfl
    | cons b p3 =>
      cases p3 with
      | nil =>
        have hbq : b ≠ '\'' := by
          simpa [List.getLast?_cons_cons] using hl
        show parseTriple (a :: b :: '\'' :: ('\'' :: ['\''])) = some ([a, b], [])
        rw [parseTriple_cons_eq, if_neg ha,
          if_neg (fun hc => hbq hc.2.1)]
        have h1 := ih (by rfl) hb2 (by simpa using hbq)
        simp only [List.singleton_append] at h1
        simp [qqq] at h1 ⊢
        simp [h1]
      | cons c3 p4 =>
        have hnt : ¬(a = '\'' ∧ b = '\'' ∧ c3 = '\'') := by
          rintro ⟨h1, h2, h3⟩
          simp [hasTriple, h1, h2, h3] at ht
        have ht2 : hasTriple (b :: c3 :: p4) = false := by
          simp [hasTriple] at ht
          exact ht.2
        have hl2 : (b :: c3 :: p4).getLast? ≠ some '\'' := by
          simpa [List.getLast?_cons_cons] using hl
        show parseTriple (a :: b :: c3 :: (p4 ++ qqq)) =
          some (a :: b :: c3 :: p4, [])
        rw [parseTriple_cons_eq, if_neg ha, if_neg hnt]
        have h1 := ih ht2 hb2 hl2
        simp only [List.cons_append] at h1
        simp [h1]

/-- C10 as stated is false: the prompt `x'` contains no `'''` substring
and no backslash, yet its trailing quote merges with the intended
closing quotes (`'''x''''`), the literal closes early and a stray quote
remains — the engine-side script does not operate on the prompt
verbatim. -/
theorem c10_counterexample : ¬ C10Claim := by
  intro h
  exact absurd (h ('x' :: ['\'']) (by decide) (by decide)) (by decide)

/-- C10 amended: the prompt is spliced without escaping into a Python
triple-quoted literal; for every prompt containing no `'''` substring,
no backslash character, and not ending in a single quote, the
engine-side value equals the caller's prompt verbatim — and the
equality is not guaranteed for prompts containing `'''` (concretely,
it fails for `a'''b`). -/
theorem c10_splice_verbatim :
    (∀ prompt : List Char, hasTriple prompt = false → '\\' ∉ prompt →
      prompt.getLast? ≠ some '\'' → engineSidePrompt prompt = some prompt) ∧
    engineSidePrompt ('a' :: '\'' :: '\'' :: '\'' :: ['b']) ≠
      some ('a' :: '\'' :: '\'' :: '\'' :: ['b']) := by
  constructor
  · intro p ht hb hl
    have h1 := parseTriple_splice p ht hb hl
    simp [engineSidePrompt, spliceScript, h1]
  · decide

/-- Witness for C10 at a concrete quote-free prompt. -/
theorem c10_witness :
    engineSidePrompt ('h' :: 'i' :: []) = some ('h' :: 'i' :: []) :=
  c10_splice_verbatim.1 ('h' :: 'i' :: []) (by decide) (by decide) (by decide)

/-! ### Prompt templating (C4, C5) -/

/-- The number of replace operations the loop performs depends only on
the match list computed once from the original template: exactly one
replace per match whose token is mapped with non-empty candidates,
whatever the replacements introduce into the prompt. -/
theorem resolveLoop_count (vars : VarStore) (rand : Nat → Nat) :
    ∀ (ms : List (List Char)) (k : Nat) (p : List Char),
      (resolveLoop vars rand ms k p).2 = ms.countP (isMappedNE vars) := by
  intro ms
  induction ms with
  | nil => intro k p; rfl
  | cons m ms ih =>
    intro k p
    simp only [resolveLoop]
    cases hl : lookupVar vars m with
    | none => simp [List.countP_cons, isMappedNE, hl, ih]
    | some vs =>
      by_cases he : vs.isEmpty
      · simp [List.countP_cons, isMappedNE, hl, he, ih]
      · have hne : vs ≠ [] := fun hv => he (by simp [hv])
        simp [List.countP_cons, isMappedNE, hl, he, ih, hne]

/-- C5 as stated is false: on the template `__a__ __b__!` with
`__a__ ↦ {"__b__"}` and `__b__ ↦ {"y"}`, the loop substitutes `__b__`
for `__a__` and the next match's replace then consumes the `__b__`
*inside that substituted text* (the leftmost occurrence), producing
`y __b__!`, while a strictly positional single pass that never
recurses into substituted text would produce `__b__ y!`. -/
theorem c5_counterexample : ¬ C5Claim := fun h =>
  absurd
    (h ('_' :: '_' :: 'a' :: '_' :: '_' :: ' ' :: '_' :: '_' :: 'b' :: '_' :: '_' :: ['!'])
      [(('_' :: '_' :: 'a' :: '_' :: '_' :: []),
          [('_' :: '_' :: 'b' :: '_' :: '_' :: [])]),
        (('_' :: '_' :: 'b' :: '_' :: '_' :: []), [['y']])]
      (fun _ => 0))
    (by decide)

/-- C5 amended: replacement is single-pass in the sense that the match
list is computed once from the original template and each match whose
token is mapped with a non-empty candidate set performs exactly one
replace operation — tokens appearing only inside substituted text never
trigger additional replacements, and the number of replaces is bounded
by the number of original matches.  (A replace may however *target* a
token occurrence lying inside previously substituted text, which is
what refutes the claim as stated.) -/
theorem c5_single_pass (vars : VarStore) (rand : Nat → Nat) (prompt : List Char) :
    resolveCount vars rand prompt = (findall prompt).countP (isMappedNE vars) ∧
    resolveCount vars rand prompt ≤ (findall prompt).length := by
  have h := resolveLoop_count vars rand (findall prompt) 0 prompt
  exact ⟨h, by rw [resolveCount, h]; exact List.countP_le_length _⟩

/-- C4 as stated is false: on the template `__a__ __b__` with
`__a__ ↦ {"__b__"}` and `__b__ ↦ {"x"}`, the second match's replace
hits the `__b__` inside the text substituted for `__a__`, so the
template's own `__b__` occurrence — mapped, with a non-empty candidate
set — survives literally in the output (`x __b__` instead of a
position-wise resolution `__b__ x`). -/
theorem c4_counterexample : ¬ C4Claim := by
  intro h
  obtain ⟨rs, hall, heq⟩ := h
    ('_' :: '_' :: 'a' :: '_' :: '_' :: ' ' :: '_' :: '_' :: 'b' :: '_' :: '_' :: [])
    [(('_' :: '_' :: 'a' :: '_' :: '_' :: []),
        [('_' :: '_' :: 'b' :: '_' :: '_' :: [])]),
      (('_' :: '_' :: 'b' :: '_' :: '_' :: []), [['x']])]
    (fun _ => 0)
  revert hall heq
  rw [show scanTokens
      ('_' :: '_' :: 'a' :: '_' :: '_' :: ' ' :: '_' :: '_' :: 'b' :: '_' :: '_' :: []) =
      ([], [(('_' :: '_' :: 'a' :: '_' :: '_' :: []), [' ']),
        (('_' :: '_' :: 'b' :: '_' :: '_' :: []), [])]) from rfl]
  simp only [List.map_cons, List.map_nil]
  intro hall heq
  cases hall with
  | cons h1 hrest =>
    cases hrest with
    | cons h2 hnil =>
      cases hnil
      have h1m : _ ∈ [('_' :: '_' :: 'b' :: '_' :: '_' :: [])] := h1
      have h2m : _ ∈ [['x']] := h2
      rw [List.mem_singleton] at h1m h2m
      subst h1m h2m
      exact absurd heq (by decide)

/-! #### The regex matcher on well-separated text -/

theorem lastCloseAux_ufree :
    ∀ (l : List Char) (i : Nat), UFree l → lastCloseAux l i = none := by
  intro l
  induction l with
  | nil => intro i _; rfl
  | cons a l ih =>
    intro i hu
    cases l with
    | nil => rfl
    | cons b t =>
      have ha : a ≠ '_' := hu a (List.mem_cons_self _ _)
      simp only [lastCloseAux]
      rw [ih (i + 1) (fun c hc => hu c (List.mem_cons_of_mem a hc))]
      simp [ha]

theorem lastCloseAux_one (u : List Char) (i : Nat) (hu : UFree u) :
    lastCloseAux ('_' :: u) i = none := by
  cases u with
  | nil => rfl
  | cons c t =>
    have hc : c ≠ '_' := hu c (List.mem_cons_self _ _)
    simp only [lastCloseAux]
    rw [lastCloseAux_ufree (c :: t) (i + 1) hu]
    simp [hc]

theorem lastCloseAux_close (u : List Char) (i : Nat) (hu : UFree u) (hi : 1 ≤ i) :
    lastCloseAux ('_' :: '_' :: u) i = some i := by
  simp only [lastCloseAux]
  rw [lastCloseAux_one u (i + 1) hu]
  simp [hi]

theorem lastCloseAux_main :
    ∀ (b u : List Char) (i : Nat), UFree b → UFree u → 1 ≤ i + b.length →
      lastCloseAux (b ++ '_' :: '_' :: u) i = some (i + b.length) := by
  intro b
  induction b with
  | nil =>
    intro u i _ hu hi
    simpa using lastCloseAux_close u i hu (by simpa using hi)
  | cons c b ih =>
    intro u i hb hu _
    have hrec := ih u (i + 1) (fun x hx => hb x (List.mem_cons_of_mem c hx)) hu
      (by omega)
    cases hsh : b ++ '_' :: '_' :: u with
    | nil => exact absurd hsh (by simp)
    | cons d t =>
      rw [List.cons_append, hsh]
      simp only [lastCloseAux]
      rw [← hsh, hrec]
      simp only [List.length_cons]
      congr 1
      omega

theorem lastClose_main (b u : List Char) (hb : UFree b) (hu : UFree u)
    (hne : b ≠ []) : lastClose (b ++ '_' :: '_' :: u) = some b.length := by
  have h := lastCloseAux_main b u 0 hb hu
    (by simpa using List.length_pos.mpr hne)
  simpa [lastClose] using h

theorem takeWhile_append_all {p : Char → Bool} :
    ∀ (l t : List Char), (∀ c ∈ l, p c = true) →
      (l ++ t).takeWhile p = l ++ t.takeWhile p := by
  intro l t h
  induction l with
  | nil => rfl
  | cons a l ih =>
    rw [List.cons_append, List.takeWhile_cons,
      if_pos (h a (List.mem_cons_self _ _)),
      ih (fun c hc => h c (List.mem_cons_of_mem a hc))]
    rfl

theorem dropWhile_append_all {p : Char → Bool} :
    ∀ (l t : List Char), (∀ c ∈ l, p c = true) →
      (l ++ t).dropWhile p = t.dropWhile p := by
  intro l t h
  induction l with
  | nil => rfl
  | cons a l ih =>
    rw [List.cons_append, List.dropWhile_cons_of_pos (h a (List.mem_cons_self _ _)),
      ih (fun c hc => h c (List.mem_cons_of_mem a hc))]

theorem takeWhile_append_stop {p : Char → Bool} :
    ∀ (l t : List Char), (∃ c ∈ l, p c = false) →
      (l ++ t).takeWhile p = l.takeWhile p := by
  intro l t h
  induction l with
  | nil => obtain ⟨c, hc, -⟩ := h; simp at hc
  | cons a l ih =>
    by_cases hp : p a
    · obtain ⟨c, hc, hcf⟩ := h
      have hcl : c ∈ l := by
        rcases List.mem_cons.mp hc with rfl | hcl
        · rw [hp] at hcf; cases hcf
        · exact hcl
      rw [List.cons_append, List.takeWhile_cons, if_pos hp, List.takeWhile_cons,
        if_pos hp, ih ⟨c, hcl, hcf⟩]
    · rw [List.cons_append, List.takeWhile_cons,
        if_neg hp, List.takeWhile_cons, if_neg hp]

theorem matchToken_cons_ne (a : Char) (l : List Char) (ha : a ≠ '_') :
    matchToken (a :: l) = none := by
  cases l with
  | nil => rfl
  | cons b t => simp [matchToken, ha]

/-- The greedy matcher at a well-formed token followed by text whose
class-character prefix is underscore-free matches exactly the token. -/
theorem matchToken_mkTok (b rest : List Char) (hb : Body b)
    (hrest : UFree (rest.takeWhile isClassChar)) :
    matchToken (mkTok b ++ rest) = some (mkTok b, rest) := by
  have hclass : ∀ c ∈ b, isClassChar c = true := fun c hc => (hb.2 c hc).1
  have hbu : UFree b := fun c hc => (hb.2 c hc).2
  have hsh : mkTok b ++ rest = '_' :: '_' :: (b ++ '_' :: '_' :: rest) := by
    simp [mkTok]
  rw [hsh]
  have hrun : (b ++ '_' :: '_' :: rest).takeWhile isClassChar =
      b ++ '_' :: '_' :: rest.takeWhile isClassChar := by
    rw [takeWhile_append_all b _ hclass]
    rw [List.takeWhile_cons, if_pos (by decide), List.takeWhile_cons,
      if_pos (by decide)]
  have hdrop : (b ++ '_' :: '_' :: rest).dropWhile isClassChar =
      rest.dropWhile isClassChar := by
    rw [dropWhile_append_all b _ hclass,
      List.dropWhile_cons_of_pos (by decide : isClassChar '_' = true),
      List.dropWhile_cons_of_pos (by decide : isClassChar '_' = true)]
  simp only [matchToken]
  rw [hrun, hdrop, lastClose_main b _ hbu hrest hb.1]
  have htake : (b ++ '_' :: '_' :: rest.takeWhile isClassChar).take (b.length + 2) =
      b ++ ['_', '_'] := by
    rw [List.take_append]
    simp
  have hdrop2 : (b ++ '_' :: '_' :: rest.takeWhile isClassChar).drop (b.length + 2) =
      rest.takeWhile isClassChar := by
    rw [List.drop_append]
    simp
  simp [htake, hdrop2, mkTok, List.takeWhile_append_dropWhile]

theorem matchToken_length :
    ∀ {s tok after : List Char}, matchToken s = some (tok, after) →
      after.length < s.length := by
  intro s tok after h
  match s with
  | [] => simp [matchToken] at h
  | [a] => simp [matchToken] at h
  | a :: b :: rest =>
    by_cases hab : a = '_' ∧ b = '_'
    · simp only [matchToken, if_pos hab] at h
      cases hlc : lastClose (rest.takeWhile isClassChar) with
      | none => rw [hlc] at h; simp at h
      | some j =>
        rw [hlc] at h
        simp only [Option.some.injEq, Prod.mk.injEq] at h
        obtain ⟨-, h2⟩ := h
        have h3 : (rest.takeWhile isClassChar).length ≤ rest.length :=
          (List.takeWhile_sublist _).length_le
        have h4 : (rest.takeWhile isClassChar).length +
            (rest.dropWhile isClassChar).length = rest.length := by
          rw [← List.length_append, List.takeWhile_append_dropWhile]
        rw [← h2]
        simp only [List.length_append, List.length_drop, List.length_cons]
        omega
    · simp [matchToken, hab] at h

theorem findallF_irrel :
    ∀ (fuel : Nat) (s : List Char) (fuel2 : Nat), s.length < fuel →
      s.length < fuel2 → findallF fuel s = findallF fuel2 s := by
  intro fuel
  induction fuel with
  | zero => intro s fuel2 h _; omega
  | succ fuel ih =>
    intro s fuel2 h h2
    cases s with
    | nil => cases fuel2 with | zero => omega | succ f => rfl
    | cons c rest =>
      cases fuel2 with
      | zero => omega
      | succ f =>
        simp only [findallF]
        cases hm : matchToken (c :: rest) with
        | none =>
          exact ih rest f (by simp at h; omega) (by simp at h2; omega)
        | some pr =>
          obtain ⟨tok, after⟩ := pr
          have hlt := matchToken_length hm
          simp only [List.length_cons] at h h2 hlt
          show tok :: findallF fuel after = tok :: findallF f after
          rw [ih after f (by omega) (by omega)]

theorem findall_eq_some {s tok after : List Char}
    (h : matchToken s = some (tok, after)) :
    findall s = tok :: findall after := by
  cases s with
  | nil => simp [matchToken] at h
  | cons c rest =>
    have hlt := matchToken_length h
    simp only [List.length_cons] at hlt
    unfold findall
    simp only [List.length_cons, findallF, h]
    congr 1
    exact findallF_irrel (rest.length + 1) after (after.length + 1)
      (by omega) (by omega)

theorem findall_eq_none {s rest : List Char} {c : Char} (hs : s = c :: rest)
    (h : matchToken s = none) : findall s = findall rest := by
  subst hs
  unfold findall
  simp only [List.length_cons, findallF, h]

theorem findall_ufree_prefix :
    ∀ (s t : List Char), UFree s → findall (s ++ t) = findall t := by
  intro s
  induction s with
  | nil => intro t _; rfl
  | cons c s ih =>
    intro t hu
    have hc : c ≠ '_' := hu c (List.mem_cons_self _ _)
    rw [List.cons_append, findall_eq_none rfl (matchToken_cons_ne c _ hc)]
    exact ih t (fun x hx => hu x (List.mem_cons_of_mem c hx))

theorem ufree_takeWhile {s : List Char} (hs : UFree s) :
    UFree (s.takeWhile isClassChar) :=
  fun c hc => hs c ((List.takeWhile_sublist _).subset hc)

/-- On a well-separated structured template the findall scan returns
exactly the intended tokens. -/
theorem findall_joinT :
    ∀ ps : List (List Char × List Char), PairsOK ps →
      findall (joinT ps) = ps.map (fun g => mkTok g.1) := by
  intro ps
  induction ps with
  | nil => intro _; rfl
  | cons g ps ih =>
    obtain ⟨b, s⟩ := g
    intro hok
    cases ps with
    | nil =>
      obtain ⟨hb, hs⟩ := hok
      have hu : UFree ((s ++ joinT []).takeWhile isClassChar) := by
        simp only [joinT, List.append_nil]
        exact ufree_takeWhile hs
      rw [joinT, List.append_assoc,
        findall_eq_some (matchToken_mkTok b (s ++ joinT []) hb hu),
        List.map_cons, List.map_nil]
      have h0 : findall s = [] := by
        have h1 := findall_ufree_prefix s [] hs
        simpa using h1
      simp [h0, joinT]
    | cons g2 ps2 =>
      obtain ⟨hb, hs, hnc, hrest⟩ := hok
      have hu : UFree ((s ++ joinT (g2 :: ps2)).takeWhile isClassChar) := by
        rw [takeWhile_append_stop s _ hnc]
        exact ufree_takeWhile hs
      rw [joinT, List.append_assoc,
        findall_eq_some (matchToken_mkTok b (s ++ joinT (g2 :: ps2)) hb hu),
        List.map_cons, findall_ufree_prefix s _ hs, ih hrest]

/-! #### Where occurrences of a token can start -/

theorem suffix_append_cases {t x y : List Char} (h : t <:+ x ++ y) :
    t <:+ y ∨ ∃ u, u <:+ x ∧ u ≠ [] ∧ t = u ++ y := by
  induction x with
  | nil => exact .inl (by simpa using h)
  | cons a x ih =>
    rw [List.cons_append, List.suffix_cons_iff] at h
    rcases h with rfl | h
    · exact .inr ⟨a :: x, List.suffix_refl _, by simp, by simp⟩
    · rcases ih h with h | ⟨u, hu, hne, rfl⟩
      · exact .inl h
      · exact .inr ⟨u, hu.trans (List.suffix_cons a x), hne, rfl⟩

theorem noStart_nil {p r : List Char} : NoStart p [] r := by
  intro t ht hne
  rw [List.suffix_nil] at ht
  exact absurd ht hne

theorem noStart_append {p x y r : List Char} (hx : NoStart p x (y ++ r))
    (hy : NoStart p y r) : NoStart p (x ++ y) r := by
  intro t ht hne hpre
  rcases suffix_append_cases ht with h | ⟨u, hu, hune, rfl⟩
  · exact hy t h hne hpre
  · rw [List.append_assoc] at hpre
    exact hx u hu hune hpre

theorem noStart_ufree {p s r : List Char} (hp : ∃ q, p = '_' :: q)
    (hu : UFree s) : NoStart p s r := by
  intro t ht hne hpre
  obtain ⟨q, rfl⟩ := hp
  obtain ⟨c, t2, rfl⟩ : ∃ c t2, t = c :: t2 := by
    cases t with
    | nil => exact absurd rfl hne
    | cons c t2 => exact ⟨c, t2, rfl⟩
  have hc : c ∈ s := ht.subset (List.mem_cons_self _ _)
  rw [List.cons_append, List.cons_prefix_cons] at hpre
  exact hu c hc hpre.1.symm

/-- Two well-formed token tails standing at the same position agree on
their bodies. -/
theorem prefix_body_eq {b b2 w : List Char} (hb : Body b) (hb2 : Body b2)
    (h : (b ++ ['_', '_']) <+: (b2 ++ (['_', '_'] ++ w))) : b = b2 := by
  rcases Nat.lt_trichotomy b.length b2.length with hlt | heq | hgt
  · exfalso
    have hi : b.length < (b ++ ['_', '_']).length := by simp
    have e1 : (b ++ ['_', '_'])[b.length] = '_' := by
      rw [List.getElem_append_right (le_refl _)]
      simp
    have e3 := h.getElem hi
    rw [e1, List.getElem_append_left hlt] at e3
    exact (hb2.2 _ (List.getElem_mem _)).2 e3.symm
  · have hpre2 : (b2 ++ ['_', '_']) <+: (b2 ++ (['_', '_'] ++ w)) := by
      rw [← List.append_assoc]
      exact List.prefix_append _ _
    have h2 : (b ++ ['_', '_']) <+: (b2 ++ ['_', '_']) :=
      List.prefix_of_prefix_length_le h hpre2 (by simp [heq])
    have h3 := h2.eq_of_length (by simp [heq])
    exact (List.append_inj h3 heq).1
  · exfalso
    have hi : b2.length < (b ++ ['_', '_']).length := by
      simp only [List.length_append, List.length_cons]
      omega
    have e3 := h.getElem hi
    have e1 : (b ++ ['_', '_'])[b2.length] = b[b2.length] :=
      List.getElem_append_left hgt
    have e2 : (b2 ++ (['_', '_'] ++ w))[b2.length] = '_' := by
      rw [List.getElem_append_right (le_refl _)]
      simp
    rw [e1, e2] at e3
    exact (hb.2 _ (List.getElem_mem hgt)).2 e3

/-- A token tail `b__` cannot stand at the start of a segment that is
underscore-free and contains a non-class character. -/
theorem body_block {b s w : List Char} (hb : Body b) (hu : UFree s)
    (hnc : HasNonClass s) : ¬ (b ++ ['_', '_']) <+: (s ++ w) := by
  intro h
  rcases Nat.lt_or_ge b.length s.length with hlt | hge
  · have hi : b.length < (b ++ ['_', '_']).length := by simp
    have e3 := h.getElem hi
    have e1 : (b ++ ['_', '_'])[b.length] = '_' := by
      rw [List.getElem_append_right (le_refl _)]
      simp
    rw [e1, List.getElem_append_left hlt] at e3
    exact hu _ (List.getElem_mem _) e3.symm
  · obtain ⟨c, hc, hcn⟩ := hnc
    obtain ⟨q, hql, hqe⟩ := List.mem_iff_getElem.mp hc
    have hq2 : q < (b ++ ['_', '_']).length := by
      simp only [List.length_append, List.length_cons]
      omega
    have hq3 : q < (s ++ w).length := by
      rw [List.length_append]; omega
    have e3 := h.getElem hq2
    have e1 : (b ++ ['_', '_'])[q] = b[q] := List.getElem_append_left (by omega)
    have e2 : (s ++ w)[q] = s[q] := List.getElem_append_left hql
    rw [e1, e2, hqe] at e3
    have hcl := (hb.2 _ (List.getElem_mem (by omega : q < b.length))).1
    rw [e3] at hcl
    rw [hcl] at hcn
    simp at hcn

/-- No occurrence of the token `__b__` can start anywhere inside a
leftover literal token `__b2__` (of a different body) followed by its
separating segment. -/
theorem noStart_mkTok {b b2 s r : List Char} (hb : Body b) (hb2 : Body b2)
    (hne : mkTok b ≠ mkTok b2) (hu : UFree s) (hnc : HasNonClass s) :
    NoStart (mkTok b) (mkTok b2) (s ++ r) := by
  intro t ht htne hpre
  rw [mkTok, List.suffix_cons_iff] at ht
  rcases ht with rfl | ht
  · -- the occurrence would coincide with the whole leftover token
    apply hne
    rw [mkTok, mkTok]
    rw [mkTok, List.cons_append, List.cons_append, List.cons_prefix_cons] at hpre
    obtain ⟨-, hpre⟩ := hpre
    rw [List.cons_prefix_cons] at hpre
    obtain ⟨-, hpre⟩ := hpre
    rw [List.append_assoc] at hpre
    rw [prefix_body_eq hb hb2 hpre]
  rw [List.suffix_cons_iff] at ht
  rcases ht with rfl | ht
  · -- one underscore of the opening delimiter, then the body of b2
    obtain ⟨c, b3, hb3⟩ : ∃ c b3, b2 = c :: b3 := by
      cases b2 with
      | nil => exact absurd rfl hb2.1
      | cons c b3 => exact ⟨c, b3, rfl⟩
    rw [mkTok, List.cons_append, List.cons_prefix_cons] at hpre
    obtain ⟨-, hpre⟩ := hpre
    rw [hb3, List.cons_append, List.cons_append, List.cons_prefix_cons] at hpre
    exact (hb2.2 c (by simp [hb3])).2 hpre.1.symm
  rcases suffix_append_cases ht with ht2 | ⟨u, hu2, hune, rfl⟩
  · rw [List.suffix_cons_iff] at ht2
    rcases ht2 with rfl | ht2
    · -- the closing double underscore of the leftover token
      rw [mkTok, List.cons_append, List.cons_append, List.cons_prefix_cons] at hpre
      obtain ⟨-, hpre⟩ := hpre
      rw [List.cons_prefix_cons] at hpre
      obtain ⟨-, hpre⟩ := hpre
      rw [List.nil_append] at hpre
      exact body_block hb hu hnc hpre
    rw [List.suffix_cons_iff] at ht2
    rcases ht2 with rfl | ht2
    · -- the last underscore of the leftover token
      obtain ⟨cs, s2, hs2⟩ : ∃ cs s2, s = cs :: s2 := by
        obtain ⟨c, hc, -⟩ := hnc
        cases s with
        | nil => simp at hc
        | cons cs s2 => exact ⟨cs, s2, rfl⟩
      rw [mkTok, List.cons_append, List.cons_prefix_cons] at hpre
      obtain ⟨-, hpre⟩ := hpre
      rw [List.nil_append, hs2, List.cons_append, List.cons_prefix_cons] at hpre
      exact hu cs (by simp [hs2]) hpre.1.symm
    · rw [List.suffix_nil] at ht2
      exact htne ht2
  · -- a position inside the body of the leftover token
    obtain ⟨cu, u2, rfl⟩ : ∃ cu u2, u = cu :: u2 := by
      cases u with
      | nil => exact absurd rfl hune
      | cons cu u2 => exact ⟨cu, u2, rfl⟩
    rw [mkTok, List.cons_append, List.cons_append, List.cons_prefix_cons] at hpre
    have hcu : cu ∈ b2 := hu2.subset (List.mem_cons_self _ _)
    exact (hb2.2 cu hcu).2 hpre.1.symm

/-! #### The loop invariant -/

theorem noStart_flatten {vars : VarStore} {b : List Char} (hb : Body b)
    (hm : MappedNE vars (mkTok b)) :
    ∀ (chunks : List (List Char)) (r : List Char),
      (∀ c ∈ chunks, GoodChunk vars c) → NoStart (mkTok b) chunks.flatten r := by
  intro chunks
  induction chunks with
  | nil => intro r _; exact noStart_nil
  | cons c cs ih =>
    intro r hch
    rw [List.flatten_cons]
    apply noStart_append ?hc (ih r (fun x hx => hch x (List.mem_cons_of_mem c hx)))
    rcases hch c (List.mem_cons_self _ _) with huf | ⟨b2, s2, rfl, hb2, hus, hnc, hnm⟩
    · exact noStart_ufree ⟨_, rfl⟩ huf
    · apply noStart_append
      · apply noStart_mkTok hb hb2 ?_ hus hnc
        intro heq
        rw [heq] at hm
        exact hnm hm
      · exact noStart_ufree ⟨_, rfl⟩ hus

theorem doneOK_noStart {vars : VarStore} {d b r : List Char} (hd : DoneOK vars d)
    (hb : Body b) (hm : MappedNE vars (mkTok b)) : NoStart (mkTok b) d r := by
  obtain ⟨chunks, rfl, hch⟩ := hd
  exact noStart_flatten hb hm chunks r hch

theorem doneOK_append {vars : VarStore} {d c : List Char} (hd : DoneOK vars d)
    (hc : GoodChunk vars c) : DoneOK vars (d ++ c) := by
  obtain ⟨chunks, rfl, hch⟩ := hd
  refine ⟨chunks ++ [c], by simp, fun x hx => ?_⟩
  rcases List.mem_append.mp hx with hx | hx
  · exact hch x hx
  · rw [List.mem_singleton.mp hx]
    exact hc

theorem replaceFirst_skip {pat : List Char} :
    ∀ (d : List Char) {rest : List Char} (repl : List Char),
      NoStart pat d rest →
      replaceFirst (d ++ rest) pat repl = d ++ replaceFirst rest pat repl := by
  intro d
  induction d with
  | nil => intro rest repl _; rfl
  | cons c d2 ih =>
    intro rest repl hns
    rw [List.cons_append]
    rw [replaceFirst, if_neg ?hnp]
    · rw [ih repl
        (fun t ht htne => hns t (ht.trans (List.suffix_cons c d2)) htne)]
      rfl
    · intro hp
      have h2 := List.isPrefixOf_iff_prefix.mp hp
      exact hns (c :: d2) (List.suffix_refl _) (by simp)
        (by rwa [List.cons_append])

theorem replaceFirst_hit {pat : List Char} (hne : pat ≠ []) (t repl : List Char) :
    replaceFirst (pat ++ t) pat repl = repl ++ t := by
  obtain ⟨c, p2, rfl⟩ : ∃ c p2, pat = c :: p2 := by
    cases pat with
    | nil => exact absurd rfl hne
    | cons c p2 => exact ⟨c, p2, rfl⟩
  rw [List.cons_append, replaceFirst, if_pos ?hp]
  · congr 1
    rw [show c :: (p2 ++ t) = (c :: p2) ++ t from rfl, List.drop_left]
  · exact List.isPrefixOf_iff_prefix.mpr ⟨t, by simp⟩

theorem choiceOf_mem {rand : Nat → Nat} {k : Nat} {vs : List (List Char)}
    (h : vs ≠ []) : choiceOf rand k vs ∈ vs := by
  rw [choiceOf, List.getD_eq_getElem _ _ (Nat.mod_lt _ (List.length_pos.mpr h))]
  exact List.getElem_mem _

theorem lookupVar_mem :
    ∀ {vars : VarStore} {tok vs : _}, lookupVar vars tok = some vs →
      ∃ n, (n, vs) ∈ vars := by
  intro vars
  induction vars with
  | nil => intro tok vs h; simp [lookupVar] at h
  | cons g rest ih =>
    intro tok vs h
    obtain ⟨n, vs2⟩ := g
    rw [lookupVar] at h
    by_cases hn : n = tok
    · rw [if_pos hn] at h
      obtain rfl : vs2 = vs := by injection h
      exact ⟨n, List.mem_cons_self _ _⟩
    · rw [if_neg hn] at h
      obtain ⟨m, hm⟩ := ih h
      exact ⟨m, List.mem_cons_of_mem _ hm⟩

/-- The substitution loop on a well-separated structured template: with
the already-resolved text `d` to the left, each remaining match
replaces exactly its own occurrence, so the loop computes the
slot-by-slot resolution. -/
theorem resolveLoop_structured (vars : VarStore) (rand : Nat → Nat)
    (hcands : CandsUFree vars) :
    ∀ (ps : List (List Char × List Char)) (k : Nat) (d : List Char),
      PairsOK ps → DoneOK vars d →
      (resolveLoop vars rand (ps.map (fun g => mkTok g.1)) k (d ++ joinT ps)).1 =
        d ++ withChoices (ps.map (fun g => (mkTok g.1, g.2)))
          (specChoices vars rand k ps) := by
  intro ps
  induction ps with
  | nil =>
    intro k d _ _
    simp [resolveLoop, joinT, withChoices, specChoices]
  | cons g ps ih =>
    obtain ⟨b, s⟩ := g
    intro k d hok hd
    have hb : Body b := by
      cases ps with
      | nil => exact hok.1
      | cons g2 ps2 => exact hok.1
    have hs : UFree s := by
      cases ps with
      | nil => exact hok.2
      | cons g2 ps2 => exact hok.2.1
    simp only [List.map_cons, joinT]
    cases hl : lookupVar vars (mkTok b) with
    | none =>
      have hnm : ¬ MappedNE vars (mkTok b) := by
        rintro ⟨vs, hvs, -⟩
        rw [hl] at hvs
        cases hvs
      simp only [resolveLoop, hl]
      cases ps with
      | nil =>
        simp [resolveLoop, withChoices, specChoices, hl, joinT,
          List.append_assoc]
      | cons g2 ps2 =>
        obtain ⟨-, -, hnc, hrest⟩ := hok
        have harr : d ++ (mkTok b ++ s ++ joinT (g2 :: ps2)) =
            (d ++ (mkTok b ++ s)) ++ joinT (g2 :: ps2) := by
          simp [List.append_assoc]
        rw [harr, ih k (d ++ (mkTok b ++ s)) hrest
          (doneOK_append hd (.inr ⟨b, s, rfl, hb, hs, hnc, hnm⟩))]
        simp [specChoices, hl, withChoices, List.append_assoc]
    | some vs =>
      by_cases hemp : vs.isEmpty
      · have hvs : vs = [] := by simpa [List.isEmpty_iff] using hemp
        have hnm : ¬ MappedNE vars (mkTok b) := by
          rintro ⟨vs2, hvs2, hne2⟩
          rw [hl] at hvs2
          obtain rfl : vs = vs2 := by injection hvs2
          exact hne2 hvs
        simp only [resolveLoop, hl, hemp, if_true]
        cases ps with
        | nil =>
          simp [resolveLoop, withChoices, specChoices, hl, hemp, joinT,
            List.append_assoc]
        | cons g2 ps2 =>
          obtain ⟨-, -, hnc, hrest⟩ := hok
          have harr : d ++ (mkTok b ++ s ++ joinT (g2 :: ps2)) =
              (d ++ (mkTok b ++ s)) ++ joinT (g2 :: ps2) := by
            simp [List.append_assoc]
          rw [harr, ih k (d ++ (mkTok b ++ s)) hrest
            (doneOK_append hd (.inr ⟨b, s, rfl, hb, hs, hnc, hnm⟩))]
          simp [specChoices, hl, hemp, withChoices, List.append_assoc]
      · have hvsne : vs ≠ [] := fun h => hemp (by simp [h])
        have hmne : MappedNE vars (mkTok b) := ⟨vs, hl, hvsne⟩
        have hchoice : UFree (choiceOf rand k vs) := by
          obtain ⟨n, hn⟩ := lookupVar_mem hl
          exact hcands (n, vs) hn _ (choiceOf_mem hvsne)
        have hps : PairsOK ps := by
          cases ps with
          | nil => trivial
          | cons g2 ps2 => exact hok.2.2.2
        have hd2 : DoneOK vars (d ++ (choiceOf rand k vs ++ s)) := by
          rw [← List.append_assoc]
          exact doneOK_append (doneOK_append hd (.inl hchoice)) (.inl hs)
        have hrf : replaceFirst (d ++ (mkTok b ++ s ++ joinT ps)) (mkTok b)
            (choiceOf rand k vs) =
            (d ++ (choiceOf rand k vs ++ s)) ++ joinT ps := by
          have h1 : d ++ (mkTok b ++ s ++ joinT ps) =
              d ++ (mkTok b ++ (s ++ joinT ps)) := by
            simp [List.append_assoc]
          rw [h1, replaceFirst_skip d _ (doneOK_noStart hd hb hmne),
            replaceFirst_hit (by simp [mkTok]) _ _]
          simp [List.append_assoc]
        simp only [resolveLoop, hl]
        rw [if_neg hemp]
        simp only [hrf, ih (k + 1) (d ++ (choiceOf rand k vs ++ s)) hps hd2]
        simp [specChoices, hl, hemp, withChoices, List.append_assoc]

theorem specChoices_slotOK (vars : VarStore) (rand : Nat → Nat) :
    ∀ (ps : List (List Char × List Char)) (k : Nat),
      List.Forall₂ (slotOK vars) (ps.map (fun g => mkTok g.1))
        (specChoices vars rand k ps) := by
  intro ps
  induction ps with
  | nil => intro k; exact .nil
  | cons g ps ih =>
    obtain ⟨b, s⟩ := g
    intro k
    rw [List.map_cons]
    cases hl : lookupVar vars (mkTok b) with
    | none =>
      have heq : specChoices vars rand k ((b, s) :: ps) =
          mkTok b :: specChoices vars rand k ps := by
        simp [specChoices, hl]
      rw [heq]
      refine .cons ?_ (ih k)
      simp [slotOK, hl]
    | some vs =>
      by_cases hemp : vs.isEmpty
      · have heq : specChoices vars rand k ((b, s) :: ps) =
            mkTok b :: specChoices vars rand k ps := by
          simp [specChoices, hl, hemp]
        rw [heq]
        refine .cons ?_ (ih k)
        have hvs : vs = [] := by simpa [List.isEmpty_iff] using hemp
        simp [slotOK, hl, hvs]
      · have heq : specChoices vars rand k ((b, s) :: ps) =
            choiceOf rand k vs :: specChoices vars rand (k + 1) ps := by
          simp [specChoices, hl, hemp]
        rw [heq]
        refine .cons ?_ (ih (k + 1))
        have hvsne : vs ≠ [] := fun h => hemp (by simp [h])
        simp only [slotOK, hl]
        rw [if_neg hvsne]
        exact choiceOf_mem hvsne

/-- C4 amended: on templates that interleave literal segments with
well-formed placeholder tokens — segments underscore-free, segments
between consecutive tokens containing a character outside the token
alphabet, token bodies non-empty with underscore-free class characters
— and with every stored candidate underscore-free, each placeholder
occurrence whose token is mapped with a non-empty candidate set
resolves at its position to one of that token's candidates (drawn
independently per occurrence), and the literal token of such an
occurrence never survives; tokens not mapped (or with an empty
candidate set) stay verbatim.  Without these separation conditions a
replace can land on an equal token occurrence elsewhere (see the C4
counterexample), which is what the amendment excludes. -/
theorem c4_position_resolution (vars : VarStore) (rand : Nat → Nat)
    (seg0 : List Char) (ps : List (List Char × List Char))
    (h0 : UFree seg0) (hok : PairsOK ps) (hc : CandsUFree vars) :
    ∃ rs : List (List Char),
      List.Forall₂ (slotOK vars) (ps.map (fun g => mkTok g.1)) rs ∧
      resolve vars rand (seg0 ++ joinT ps) =
        seg0 ++ withChoices (ps.map (fun g => (mkTok g.1, g.2))) rs := by
  refine ⟨specChoices vars rand 0 ps, specChoices_slotOK vars rand ps 0, ?_⟩
  rw [resolve, findall_ufree_prefix seg0 _ h0, findall_joinT ps hok]
  refine resolveLoop_structured vars rand hc ps 0 seg0 hok ⟨[seg0], by simp, ?_⟩
  intro c hcm
  rw [List.mem_singleton.mp hcm]
  exact .inl h0

/-- Witness for C4 at the design's example: template
`a __color__ cat, __color__ again` with `__color__ ↦ {red, blue}`. -/
theorem c4_witness :
    ∃ rs : List (List Char),
      List.Forall₂ (slotOK [("__color__".data, ["red".data, "blue".data])])
        ([("color".data, " cat, ".data), ("color".data, " again".data)].map
          (fun g => mkTok g.1)) rs ∧
      resolve [("__color__".data, ["red".data, "blue".data])] (fun j => j)
          ("a ".data ++
            joinT [("color".data, " cat, ".data), ("color".data, " again".data)]) =
        "a ".data ++ withChoices
          ([("color".data, " cat, ".data), ("color".data, " again".data)].map
            (fun g => (mkTok g.1, g.2))) rs :=
  c4_position_resolution _ _ _ _ (by decide) (by decide) (by decide)

end Pyros
